import Mathlib

/-!
Verification of the PasswordVault core (`src/PasswordVault/vault_aes.c` and
`src/PasswordVault/crypto.c`) against its natural-language specification.

The C code is shallowly embedded: C byte buffers become `List Nat` (each
element a byte value), fallible operations return `Except`, the process file
system state becomes an explicit `FS` record, and the OpenSSL primitives
(PBKDF2, AES-256-GCM, RAND_bytes), which are external to the repository, are
modelled from the spec as explicit parameters / oracle tapes.
-/

namespace Vault

/-- A byte value; the C code's `uint8_t` / `char` data is embedded as `Nat`. -/
abbrev Byte := Nat

/-- The tab character, the field delimiter of a record line. -/
def TAB : Byte := 9

/-- The newline character, the record delimiter of the plaintext blob. -/
def NL : Byte := 10

/-- The `'#'` comment marker checked by `parse_lines`. -/
def HASH : Byte := 35

/-- Bytes of the header comment line of `serialize`, without the trailing
newline: the C string `"# AES_VAULT (authenticated)"`. -/
def hdrBody : List Byte :=
  [35, 32, 65, 69, 83, 95, 86, 65, 85, 76, 84, 32, 40, 97, 117, 116, 104,
   101, 110, 116, 105, 99, 97, 116, 101, 100, 41]

/-- Bytes of the full header string `"# AES_VAULT (authenticated)\n"` used by
`serialize` in vault_aes.c. -/
def hdr : List Byte := hdrBody ++ [NL]

/-- Embedding of `serialize` (vault_aes.c lines 84-102): the header string
followed by each row joined with a trailing newline. -/
def serialize (rows : List (List Byte)) : List Byte :=
  hdr ++ rows.flatMap (fun r => r ++ [NL])

/-- Split a byte list at every occurrence of the delimiter `d`, keeping empty
segments; the building block for the `strtok_r` embedding. -/
def splitAll (d : Byte) : List Byte → List (List Byte)
  | [] => [[]]
  | c :: rest =>
    if c = d then [] :: splitAll d rest
    else
      match splitAll d rest with
      | [] => [[c]]
      | t :: ts => (c :: t) :: ts

/-- The filter applied by `parse_lines` to each `strtok_r` token: `strtok_r`
itself never yields an empty token, and the loop body skips tokens whose
first byte is `'#'`. -/
def keepLine : List Byte → Bool
  | [] => false
  | c :: _ => c != HASH

/-- Embedding of `parse_lines` (vault_aes.c lines 105-112): `strtok_r` on
`'\n'` (which drops empty segments) with lines starting with `'#'` skipped. -/
def parse_lines (plain : List Byte) : List (List Byte) :=
  (splitAll NL plain).filter keepLine

/-- Embedding of repeated `strtok` calls with a single-character delimiter
set: the maximal nonempty runs between occurrences of `d`. -/
def tokenize (d : Byte) (l : List Byte) : List (List Byte) :=
  (splitAll d l).filter (fun t => !t.isEmpty)

/-- The record line `"%s\t%s\t%s"` built from three fields, before the
`snprintf` size cap. -/
def joinFields (s u p : List Byte) : List Byte :=
  s ++ [TAB] ++ u ++ [TAB] ++ p

/-- Embedding of the three `strtok(buf, "\t")` calls in `cmd_show`
(vault_aes.c lines 338-340): the first three tab-separated tokens of a row,
or `none` when fewer than three exist. -/
def recover3 (l : List Byte) : Option (List Byte × List Byte × List Byte) :=
  match tokenize TAB l with
  | t0 :: t1 :: t2 :: _ => some (t0, t1, t2)
  | _ => none

/-- Modelled from the spec: the cryptographic primitives of crypto.c are thin
adapters over OpenSSL (PBKDF2-HMAC-SHA256 and AES-256-GCM), whose internals
are not part of this repository.  Per spec section 4.1 and 4.2 they are a
deterministic key-derivation function and an AEAD whose ciphertext has the
same length as the plaintext (stream-like mode) with a detached tag.  The
model therefore carries the keystream (`ks`, indexed by key, nonce and byte
position), the tag function (`tagF`, over key, nonce and ciphertext) and the
KDF (`kdf`, over password, salt and iteration count) as explicit
parameters. -/
structure Crypto where
  ks : List Byte → List Byte → Nat → Nat
  tagF : List Byte → List Byte → List Byte → List Byte
  kdf : List Byte → List Byte → Nat → List Byte

/-- XOR a byte list against a keystream starting at position `i`; the GCM
counter-mode body shared by encryption and decryption. -/
def xorStream (f : Nat → Nat) : Nat → List Byte → List Byte
  | _, [] => []
  | i, b :: bs => (b ^^^ (f i % 256)) :: xorStream f (i + 1) bs

/-- Embedding of `aes256gcm_encrypt` (crypto.c lines 22-53): produce the
same-length ciphertext and the detached tag. -/
def aes256gcm_encrypt (cm : Crypto) (key nonce pt : List Byte) :
    List Byte × List Byte :=
  let ct := xorStream (cm.ks key nonce) 0 pt
  (ct, cm.tagF key nonce ct)

/-- Embedding of `aes256gcm_decrypt` (crypto.c lines 55-86).  The C function
first calls `EVP_DecryptUpdate`, which writes the decrypted bytes into the
caller-supplied `out_pt` buffer, and only afterwards sets the expected tag
and calls `EVP_DecryptFinal_ex`, which verifies it.  The embedding returns
the C return code together with the contents of the caller's `out_pt`
buffer after the call: the buffer holds the decrypted bytes whether or not
the tag verified. -/
def aes256gcm_decrypt (cm : Crypto) (key nonce ct tag : List Byte) :
    Int × List Byte :=
  let pt := xorStream (cm.ks key nonce) 0 ct
  if cm.tagF key nonce ct = tag then (0, pt) else (-1, pt)

/-- Modelled from the spec: `crypto_rand` wraps OpenSSL `RAND_bytes`, which
is external to the repository.  The random source is modelled as an infinite
byte tape together with the position of the next unread byte; each call
consumes the bytes it returns. -/
structure RngState where
  tape : Nat → Nat
  pos : Nat

/-- The `n` bytes of tape `t` starting at position `pos`. -/
def draw (t : Nat → Nat) (pos n : Nat) : List Byte :=
  (List.range n).map (fun i => t (pos + i) % 256)

/-- Embedding of `crypto_rand` (crypto.c lines 88-90) over the tape model:
return `n` fresh bytes and advance the tape position. -/
def crypto_rand (st : RngState) (n : Nat) : List Byte × RngState :=
  (draw st.tape st.pos n, ⟨st.tape, st.pos + n⟩)

/-- Host byte order.  The C code stores `uint32_t` values with `memcpy`, so
the bytes written are the host's native representation (vault_aes.c line 178
comments `host LE assumed`). -/
inductive Endian
  | little
  | big
deriving DecidableEq

/-- The 4 bytes of the host representation of a `uint32_t` with value
`n mod 2^32`. -/
def u32bytes : Endian → Nat → List Byte
  | .little, n => [n % 256, n / 256 % 256, n / 256 / 256 % 256, n / 256 / 256 / 256 % 256]
  | .big, n => [n / 256 / 256 / 256 % 256, n / 256 / 256 % 256, n / 256 % 256, n % 256]

/-- Read back a `uint32_t` from the first four bytes of a buffer in host
byte order (the `memcpy(&iters, buf+off, 4)` reads of `load_vault`). -/
def readU32 (e : Endian) (l : List Byte) : Nat :=
  match e with
  | .little => l.getD 0 0 + 256 * l.getD 1 0 + 65536 * l.getD 2 0 + 16777216 * l.getD 3 0
  | .big => 16777216 * l.getD 0 0 + 65536 * l.getD 1 0 + 256 * l.getD 2 0 + l.getD 3 0

/-- Bytes of the 6-byte magic `"VAES1\n"` (vault_aes.c line 17). -/
def MAGICB : List Byte := [86, 65, 69, 83, 49, 10]

/-- The KDF work factor `PBKDF2_ITERS` (vault_aes.c line 26). -/
def PBKDF2_ITERS : Nat := 200000

/-- Assembly of the container bytes in `save_vault` (vault_aes.c lines
177-191): magic, iterations (4 host-order bytes), salt, nonce, ciphertext
length (4 host-order bytes, the `uint32_t` cast of the plaintext length),
`ct_len_le` bytes of ciphertext, tag. -/
def encode (e : Endian) (iters : Nat) (salt nonce ct tag : List Byte) :
    List Byte :=
  MAGICB ++ u32bytes e iters ++ salt ++ nonce ++ u32bytes e ct.length ++
    ct.take (ct.length % 2 ^ 32) ++ tag

/-- The failure modes of container decoding in `load_vault`: bad or missing
magic, a file shorter than the fixed-size fields, or a ciphertext length
running past end-of-file. -/
inductive FormatError
  | badMagic
  | tooSmall
  | ctOverrun
deriving DecidableEq

/-- The fields extracted from a container by `load_vault`. -/
structure Fields where
  iters : Nat
  salt : List Byte
  nonce : List Byte
  ct : List Byte
  tag : List Byte
deriving DecidableEq

/-- Embedding of the container-decoding part of `load_vault` (vault_aes.c
lines 202-223): magic is compared first (`sz < MAGIC_LEN` and `memcmp`
together are the first `take 6` comparison), then the fixed header size is
checked (6+4+16+12+4+16 = 58), then the ciphertext length is checked against
the remaining buffer before the ciphertext and tag slices are taken. -/
def decode (e : Endian) (buf : List Byte) : Except FormatError Fields :=
  if buf.take 6 ≠ MAGICB then .error .badMagic
  else if buf.length < 58 then .error .tooSmall
  else if buf.length < 42 + readU32 e ((buf.drop 38).take 4) + 16 then
    .error .ctOverrun
  else
    .ok ⟨readU32 e ((buf.drop 6).take 4),
         (buf.drop 10).take 16,
         (buf.drop 26).take 12,
         (buf.drop 42).take (readU32 e ((buf.drop 38).take 4)),
         (buf.drop (42 + readU32 e ((buf.drop 38).take 4))).take 16⟩

/-- The terminal failures of `load_vault`: no vault file, a format error, or
an authentication failure (wrong password or tampering). -/
inductive VaultErr
  | noVault
  | format (fe : FormatError)
  | authFailure
deriving DecidableEq

/-- Embedding of `load_vault` (vault_aes.c lines 202-251): read the file,
decode the container, derive the key, decrypt, and on success parse the
plaintext (a C string, hence cut at the first zero byte) into rows.  On tag
mismatch the key, the plaintext buffer and the file buffer are zeroized and
the process exits with the single `authFailure` signal; no rows are
produced. -/
def load_vault (cm : Crypto) (e : Endian) (file : Option (List Byte))
    (password : List Byte) : Except VaultErr (List (List Byte)) :=
  match file with
  | none => .error .noVault
  | some buf =>
    match decode e buf with
    | .error fe => .error (.format fe)
    | .ok f =>
      let key := cm.kdf password f.salt f.iters
      let d := aes256gcm_decrypt cm key f.nonce f.ct f.tag
      if d.1 = 0 then .ok (parse_lines (d.2.takeWhile (fun b => b ≠ 0)))
      else .error .authFailure

/-- Embedding of `save_vault` (vault_aes.c lines 151-200): draw a fresh salt
then a fresh nonce from the random source, serialize, derive the key with
`PBKDF2_ITERS`, encrypt, and assemble the container bytes. -/
def save_vault (cm : Crypto) (e : Endian) (rows : List (List Byte))
    (password : List Byte) (st : RngState) : List Byte × RngState :=
  let s := crypto_rand st 16
  let n := crypto_rand s.2 12
  let plain := serialize rows
  let key := cm.kdf password s.1 PBKDF2_ITERS
  let et := aes256gcm_encrypt cm key n.1 plain
  (encode e PBKDF2_ITERS s.1 n.1 et.1 et.2, n.2)

/-- The file system state visible to the vault tool: the contents of the
container path `vault_aes.dat` and of its temporary sibling
`vault_aes.dat.tmp` (`none` means the file does not exist). -/
structure FS where
  real : Option (List Byte)
  tmp : Option (List Byte)
deriving DecidableEq

/-- Failure-injection points inside `write_all_atomic`: `fopen` of the
temporary file, a short `fwrite` (having written `k` bytes), `fclose`, or
`rename`.  On each, `die` exits the process immediately. -/
inductive IOFail
  | atOpen
  | atWrite (k : Nat)
  | atClose
  | atRename
deriving DecidableEq

/-- Embedding of `write_all_atomic` (vault_aes.c lines 131-138): write the
whole container to the temporary path, then `rename` it over the real path
(atomic per POSIX, so a failed rename leaves the real path unchanged).  The
result pairs the file system after the call with whether it succeeded. -/
def write_all_atomic (fs : FS) (data : List Byte) (failAt : Option IOFail) :
    FS × Bool :=
  match failAt with
  | some .atOpen => (fs, false)
  | some (.atWrite k) => ({ fs with tmp := some (data.take k) }, false)
  | some .atClose => ({ fs with tmp := some data }, false)
  | some .atRename => ({ fs with tmp := some data }, false)
  | none => ({ real := some data, tmp := none }, true)

/-- Embedding of `cmd_init` (vault_aes.c lines 255-281): refuse if the
container file exists, read the password twice, refuse on mismatch, then
save an empty vault.  The passwords are `none` when `prompt_hidden` fails. -/
def cmd_init (cm : Crypto) (e : Endian) (pw1 pw2 : Option (List Byte))
    (fs : FS) (st : RngState) (failAt : Option IOFail) :
    Int × FS × RngState :=
  if fs.real.isSome then (1, fs, st)
  else
    match pw1, pw2 with
    | some a, some b =>
      if a ≠ b then (1, fs, st)
      else
        let sv := save_vault cm e [] a st
        let w := write_all_atomic fs sv.1 failAt
        (if w.2 then 0 else 1, w.1, sv.2)
    | _, _ => (1, fs, st)

/-- The delimiter check of `cmd_add` (vault_aes.c lines 288-289): does the
field contain a tab or a newline byte. -/
def hasDelim (s : List Byte) : Bool := s.contains TAB || s.contains NL

/-- The record line built by `snprintf(line, sizeof line, "%s\t%s\t%s", ...)`
in `cmd_add` (vault_aes.c lines 299-300): `MAX_LINE` is 1024, so the stored
line is silently capped at 1023 bytes. -/
def addLine (svc usr pwd : List Byte) : List Byte :=
  (joinFields svc usr pwd).take 1023

/-- Embedding of `cmd_add` (vault_aes.c lines 283-309): usage check, then
the delimiter check, then the password prompt, then load, append the
(possibly capped) line, and save.  Every failure before the save leaves the
file system untouched. -/
def cmd_add (cm : Crypto) (e : Endian) (svc usr pwd pw : Option (List Byte))
    (fs : FS) (st : RngState) (failAt : Option IOFail) :
    Int × FS × RngState :=
  match svc, usr, pwd with
  | some s, some u, some p =>
    if hasDelim s || hasDelim u || hasDelim p then (1, fs, st)
    else
      match pw with
      | none => (1, fs, st)
      | some pass =>
        match load_vault cm e fs.real pass with
        | .error _ => (1, fs, st)
        | .ok rows =>
          let sv := save_vault cm e (rows ++ [addLine s u p]) pass st
          let w := write_all_atomic fs sv.1 failAt
          (if w.2 then 0 else 1, w.1, sv.2)
  | _, _, _ => (1, fs, st)

/-- The lookup loop of `cmd_show` (vault_aes.c lines 336-345): each row is
first copied into a 1024-byte stack buffer by `strncpy(buf, L.rows[i],
sizeof buf); buf[sizeof buf-1]=0` (lines 337), capping it at 1023 bytes,
then tokenized; rows with fewer than three tab tokens are skipped, and the
first row whose first token equals the queried service is returned. -/
def showLookup (rows : List (List Byte)) (q : List Byte) :
    Option (List Byte × List Byte × List Byte) :=
  rows.findSome? (fun r =>
    match recover3 (r.take 1023) with
    | some t => if t.1 = q then some t else none
    | none => none)

/-- Embedding of `cmd_show` (vault_aes.c lines 326-351): usage check,
password prompt, load, lookup.  The second component is the record printed
on success (`none` when nothing is printed). -/
def cmd_show (cm : Crypto) (e : Endian) (svcq pw : Option (List Byte))
    (file : Option (List Byte)) :
    Int × Option (List Byte × List Byte × List Byte) :=
  match svcq with
  | none => (1, none)
  | some q =>
    match pw with
    | none => (1, none)
    | some pass =>
      match load_vault cm e file pass with
      | .error _ => (1, none)
      | .ok rows =>
        match showLookup rows q with
        | some t => (0, some t)
        | none => (1, none)

/-- A trivial instance of the crypto model (zero keystream, constant tag,
constant key), used to evaluate the embedding on concrete inputs. -/
def cmZero : Crypto :=
  ⟨fun _ _ _ => 0, fun _ _ _ => List.replicate 16 0, fun _ _ _ => List.replicate 32 0⟩

/-- A crypto-model instance whose keystream depends on the nonce, used to
evaluate nonce-sensitivity on concrete inputs. -/
def cmNonce : Crypto :=
  ⟨fun _ nonce i => nonce.headD 0 + i, fun _ _ _ => List.replicate 16 0,
   fun _ _ _ => List.replicate 32 0⟩

/-- The all-zero random tape. -/
def tape0 : Nat → Nat := fun _ => 0

/-- The identity tape: distinct positions give distinct low bytes. -/
def tapeId : Nat → Nat := fun i => i

/-- A crypto-model instance with keystream byte 1 and constant tag `[0]`,
used to exhibit decrypt behaviour on a tag mismatch. -/
def cmOne : Crypto := ⟨fun _ _ _ => 1, fun _ _ _ => [0], fun _ _ _ => []⟩

/-- A concrete container used to witness load behaviour on a bad tag: empty
vault fields under the trivial crypto model, with a corrupted tag. -/
def bufC2 : List Byte :=
  encode .little 5 (List.replicate 16 0) (List.replicate 12 0) [1, 2]
    (List.replicate 16 3)

/-- Validity of a record for the amended round-trip: all three fields are
nonempty, free of tab and newline bytes, and the service field does not
begin with the comment marker `'#'`. -/
def ValidRecord (r : List Byte × List Byte × List Byte) : Prop :=
  r.1 ≠ [] ∧ r.2.1 ≠ [] ∧ r.2.2 ≠ [] ∧
  TAB ∉ r.1 ∧ TAB ∉ r.2.1 ∧ TAB ∉ r.2.2 ∧
  NL ∉ r.1 ∧ NL ∉ r.2.1 ∧ NL ∉ r.2.2 ∧
  r.1.head? ≠ some HASH

instance (r : List Byte × List Byte × List Byte) : Decidable (ValidRecord r) := by
  unfold ValidRecord; infer_instance

instance {ε α : Type} [DecidableEq ε] [DecidableEq α] :
    DecidableEq (Except ε α) := fun a b =>
  match a, b with
  | .error e, .error f => decidable_of_iff (e = f) (by simp)
  | .ok x, .ok y => decidable_of_iff (x = y) (by simp)
  | .error _, .ok _ => .isFalse (fun hc => Except.noConfusion hc)
  | .ok _, .error _ => .isFalse (fun hc => Except.noConfusion hc)

/-- The 1020-byte password passed to `cmd_add` in the C10 scenario. -/
def pwdLong : List Byte := List.replicate 1020 99

/-- The password as actually stored in the C10 scenario: `snprintf` caps the
record line at 1023 bytes, cutting the password to 1019 bytes. -/
def pwdTrunc : List Byte := List.replicate 1019 99

/-- The C10 scenario, step 1: `init` an empty vault under the trivial
crypto model. -/
def initRes : Int × FS × RngState :=
  cmd_init cmZero .little (some [109]) (some [109]) ⟨none, none⟩ ⟨tape0, 0⟩ none

/-- The C10 scenario, step 2: `add` a record whose tab-joined line is 1024
bytes, one more than the `snprintf` cap. -/
def addRes : Int × FS × RngState :=
  cmd_add cmZero .little (some [97]) (some [98]) (some pwdLong) (some [109])
    initRes.2.1 initRes.2.2 none

/-- The C10 scenario, step 3: `show` the stored record. -/
def showRes : Int × Option (List Byte × List Byte × List Byte) :=
  cmd_show cmZero .little (some [97]) (some [109]) addRes.2.1.real

/-! ### Basic lemmas about the embedded operations -/

theorem length_xorStream (f : Nat → Nat) (i : Nat) (l : List Byte) :
    (xorStream f i l).length = l.length := by
  induction l generalizing i with
  | nil => rfl
  | cons b bs ih => simp [xorStream, ih]

theorem xorStream_xorStream (f : Nat → Nat) (i : Nat) (l : List Byte) :
    xorStream f i (xorStream f i l) = l := by
  induction l generalizing i with
  | nil => rfl
  | cons b bs ih =>
    simp only [xorStream, ih]
    rw [Nat.xor_assoc, Nat.xor_self, Nat.xor_zero]

theorem xor_right_ne (b x y : Nat) (h : x ≠ y) : b ^^^ x ≠ b ^^^ y := by
  intro hc
  apply h
  have := congrArg (fun z => b ^^^ z) hc
  simpa [← Nat.xor_assoc, Nat.xor_self, Nat.xor_zero] using this

theorem xorStream_ne (f g : Nat → Nat) (l : List Byte) (i j : Nat)
    (hj : j < l.length) (hne : f (i + j) % 256 ≠ g (i + j) % 256) :
    xorStream f i l ≠ xorStream g i l := by
  induction l generalizing i j with
  | nil => simp at hj
  | cons b bs ih =>
    cases j with
    | zero =>
      simp only [xorStream, ne_eq, List.cons.injEq, not_and]
      intro hc
      exact absurd hc (by simpa using xor_right_ne b _ _ (by simpa using hne))
    | succ j =>
      simp only [xorStream, ne_eq, List.cons.injEq, not_and]
      intro _
      exact ih (i + 1) j (by simp only [List.length_cons] at hj; omega) (by
        have : i + 1 + j = i + (j + 1) := by omega
        rw [this]; exact hne)

theorem splitAll_ne_nil (d : Byte) (l : List Byte) : splitAll d l ≠ [] := by
  induction l with
  | nil => simp [splitAll]
  | cons c rest ih =>
    simp only [splitAll]
    by_cases h : c = d
    · simp [h]
    · simp only [h, if_false]
      cases hr : splitAll d rest with
      | nil => simp
      | cons t ts => simp

theorem splitAll_no_delim (d : Byte) (l : List Byte) (h : d ∉ l) :
    splitAll d l = [l] := by
  induction l with
  | nil => rfl
  | cons c rest ih =>
    simp only [List.mem_cons, not_or] at h
    have hcd : ¬c = d := fun hc => h.1 hc.symm
    simp only [splitAll, if_neg hcd, ih h.2]

theorem splitAll_append_delim (d : Byte) (x y : List Byte) (h : d ∉ x) :
    splitAll d (x ++ d :: y) = x :: splitAll d y := by
  induction x with
  | nil => simp [splitAll]
  | cons c cs ih =>
    simp only [List.mem_cons, not_or] at h
    have hcd : ¬c = d := fun hc => h.1 hc.symm
    simp only [List.cons_append, splitAll, if_neg hcd, List.append_eq, ih h.2]

theorem splitAll_flat (rows : List (List Byte))
    (h : ∀ r ∈ rows, NL ∉ r) :
    splitAll NL (rows.flatMap (fun r => r ++ [NL])) = rows ++ [[]] := by
  induction rows with
  | nil => rfl
  | cons r rs ih =>
    have hr : NL ∉ r := h r (List.mem_cons_self r rs)
    have hrest := ih (fun x hx => h x (List.mem_cons_of_mem r hx))
    simp only [List.flatMap_cons, List.append_assoc, List.singleton_append]
    rw [splitAll_append_delim NL r _ hr, hrest]
    rfl

theorem parse_serialize (rows : List (List Byte))
    (h : ∀ r ∈ rows, NL ∉ r ∧ keepLine r = true) :
    parse_lines (serialize rows) = rows := by
  have hb : NL ∉ hdrBody := by decide
  have h1 : serialize rows = hdrBody ++ NL :: rows.flatMap (fun r => r ++ [NL]) := by
    simp [serialize, hdr, List.append_assoc]
  rw [parse_lines, h1, splitAll_append_delim NL hdrBody _ hb,
    splitAll_flat rows (fun r hr => (h r hr).1)]
  have hk : keepLine hdrBody = false := by decide
  simp only [List.filter_cons, hk, List.filter_append]
  rw [List.filter_eq_self.mpr (fun r hr => (h r hr).2)]
  simp [keepLine]

theorem tokenize_join (s u p : List Byte)
    (hs : TAB ∉ s) (hu : TAB ∉ u) (hp : TAB ∉ p)
    (hs0 : s ≠ []) (hu0 : u ≠ []) (hp0 : p ≠ []) :
    tokenize TAB (joinFields s u p) = [s, u, p] := by
  have h1 : joinFields s u p = s ++ TAB :: (u ++ TAB :: p) := by
    simp [joinFields, List.append_assoc]
  rw [tokenize, h1, splitAll_append_delim TAB s _ hs,
    splitAll_append_delim TAB u _ hu, splitAll_no_delim TAB p hp]
  simp [hs0, hu0, hp0]

theorem recover3_join (s u p : List Byte)
    (hs : TAB ∉ s) (hu : TAB ∉ u) (hp : TAB ∉ p)
    (hs0 : s ≠ []) (hu0 : u ≠ []) (hp0 : p ≠ []) :
    recover3 (joinFields s u p) = some (s, u, p) := by
  rw [recover3, tokenize_join s u p hs hu hp hs0 hu0 hp0]

theorem readU32_u32bytes (e : Endian) (n : Nat) (h : n < 2 ^ 32) :
    readU32 e (u32bytes e n) = n := by
  cases e <;> simp [readU32, u32bytes, List.getD] <;> omega

theorem length_u32bytes (e : Endian) (n : Nat) : (u32bytes e n).length = 4 := by
  cases e <;> rfl

theorem slice_mid (x y z : List Byte) (m k : Nat) (hx : x.length = m)
    (hy : y.length = k) : ((x ++ (y ++ z)).drop m).take k = y := by
  subst hx; subst hy
  rw [List.drop_left, List.take_left]

theorem encode_length (e : Endian) (iters : Nat) (salt nonce ct tag : List Byte)
    (hs : salt.length = 16) (hn : nonce.length = 12) (ht : tag.length = 16)
    (hct : ct.length < 2 ^ 32) :
    (encode e iters salt nonce ct tag).length = 58 + ct.length := by
  simp [encode, List.length_append, hs, hn, ht, length_u32bytes, MAGICB,
    Nat.mod_eq_of_lt hct]
  omega

theorem encode_iters_slice (e : Endian) (iters : Nat)
    (salt nonce ct tag : List Byte) :
    ((encode e iters salt nonce ct tag).drop 6).take 4 = u32bytes e iters := by
  have h1 : encode e iters salt nonce ct tag =
      MAGICB ++ (u32bytes e iters ++ (salt ++ (nonce ++ (u32bytes e ct.length ++
        (ct.take (ct.length % 2 ^ 32) ++ tag))))) := by
    simp [encode, List.append_assoc]
  rw [h1, slice_mid MAGICB _ _ 6 4 rfl (length_u32bytes e iters)]

theorem encode_salt_slice (e : Endian) (iters : Nat)
    (salt nonce ct tag : List Byte) (hs : salt.length = 16) :
    ((encode e iters salt nonce ct tag).drop 10).take 16 = salt := by
  have h1 : encode e iters salt nonce ct tag =
      (MAGICB ++ u32bytes e iters) ++ (salt ++ (nonce ++ (u32bytes e ct.length ++
        (ct.take (ct.length % 2 ^ 32) ++ tag)))) := by
    simp [encode, List.append_assoc]
  rw [h1, slice_mid _ _ _ 10 16 (by simp [MAGICB, length_u32bytes]) hs]

theorem encode_nonce_slice (e : Endian) (iters : Nat)
    (salt nonce ct tag : List Byte) (hs : salt.length = 16)
    (hn : nonce.length = 12) :
    ((encode e iters salt nonce ct tag).drop 26).take 12 = nonce := by
  have h1 : encode e iters salt nonce ct tag =
      (MAGICB ++ u32bytes e iters ++ salt) ++ (nonce ++ (u32bytes e ct.length ++
        (ct.take (ct.length % 2 ^ 32) ++ tag))) := by
    simp [encode, List.append_assoc]
  rw [h1, slice_mid _ _ _ 26 12 (by simp [MAGICB, length_u32bytes, hs]) hn]

theorem encode_ctlen_slice (e : Endian) (iters : Nat)
    (salt nonce ct tag : List Byte) (hs : salt.length = 16)
    (hn : nonce.length = 12) :
    ((encode e iters salt nonce ct tag).drop 38).take 4 = u32bytes e ct.length := by
  have h1 : encode e iters salt nonce ct tag =
      (MAGICB ++ u32bytes e iters ++ salt ++ nonce) ++ (u32bytes e ct.length ++
        (ct.take (ct.length % 2 ^ 32) ++ tag)) := by
    simp [encode, List.append_assoc]
  rw [h1, slice_mid _ _ _ 38 4 (by simp [MAGICB, length_u32bytes, hs, hn])
    (length_u32bytes e ct.length)]

theorem encode_ct_slice (e : Endian) (iters : Nat)
    (salt nonce ct tag : List Byte) (hs : salt.length = 16)
    (hn : nonce.length = 12) (hct : ct.length < 2 ^ 32) :
    ((encode e iters salt nonce ct tag).drop 42).take ct.length = ct := by
  have hct' : ct.length < 4294967296 := by omega
  have hmod : ct.take (ct.length % 4294967296) = ct := by
    rw [Nat.mod_eq_of_lt hct', List.take_length]
  have h1 : encode e iters salt nonce ct tag =
      (MAGICB ++ u32bytes e iters ++ salt ++ nonce ++ u32bytes e ct.length) ++
        (ct ++ tag) := by
    simp [encode, List.append_assoc, hmod]
  rw [h1, slice_mid _ _ _ 42 ct.length
    (by simp [MAGICB, length_u32bytes, hs, hn]) rfl]

theorem encode_magic (e : Endian) (iters : Nat) (salt nonce ct tag : List Byte) :
    (encode e iters salt nonce ct tag).take 6 = MAGICB := by
  rw [encode, List.append_assoc, List.append_assoc, List.append_assoc,
    List.append_assoc, List.append_assoc]
  exact List.take_left' rfl

theorem encode_tag_slice (e : Endian) (iters : Nat)
    (salt nonce ct tag : List Byte) (hs : salt.length = 16)
    (hn : nonce.length = 12) (ht : tag.length = 16) (hct : ct.length < 2 ^ 32) :
    ((encode e iters salt nonce ct tag).drop (42 + ct.length)).take 16 = tag := by
  have hct' : ct.length < 4294967296 := by omega
  have hmod : ct.take (ct.length % 4294967296) = ct := by
    rw [Nat.mod_eq_of_lt hct', List.take_length]
  have h1 : encode e iters salt nonce ct tag =
      (MAGICB ++ u32bytes e iters ++ salt ++ nonce ++ u32bytes e ct.length ++
        ct) ++ tag := by
    simp [encode, List.append_assoc, hmod]
  rw [h1, List.drop_left' (by simp [MAGICB, length_u32bytes, hs, hn]; omega),
    List.take_of_length_le (by omega)]

theorem decode_encode (e : Endian) (iters : Nat) (salt nonce ct tag : List Byte)
    (hi : iters < 2 ^ 32) (hs : salt.length = 16) (hn : nonce.length = 12)
    (ht : tag.length = 16) (hct : ct.length < 2 ^ 32) :
    decode e (encode e iters salt nonce ct tag) =
      .ok ⟨iters, salt, nonce, ct, tag⟩ := by
  have hlen := encode_length e iters salt nonce ct tag hs hn ht hct
  have hctlen : readU32 e (((encode e iters salt nonce ct tag).drop 38).take 4) =
      ct.length := by
    rw [encode_ctlen_slice e iters salt nonce ct tag hs hn]
    exact readU32_u32bytes e ct.length hct
  rw [decode, if_neg (by rw [encode_magic]; simp),
    if_neg (by rw [hlen]; omega), if_neg (by rw [hlen, hctlen]; omega)]
  rw [hctlen, encode_iters_slice, encode_salt_slice e iters salt nonce ct tag hs,
    encode_nonce_slice e iters salt nonce ct tag hs hn,
    encode_ct_slice e iters salt nonce ct tag hs hn hct,
    encode_tag_slice e iters salt nonce ct tag hs hn ht hct,
    readU32_u32bytes e iters hi]

theorem keepLine_join (s u p : List Byte) (hs0 : s ≠ [])
    (hh : s.head? ≠ some HASH) : keepLine (joinFields s u p) = true := by
  cases s with
  | nil => exact absurd rfl hs0
  | cons c s' =>
    simp only [joinFields, List.cons_append, keepLine, bne_iff_ne, ne_eq]
    intro hc
    exact hh (by rw [hc]; rfl)

theorem nl_not_mem_join (s u p : List Byte) (h1 : NL ∉ s) (h2 : NL ∉ u)
    (h3 : NL ∉ p) : NL ∉ joinFields s u p := by
  simp only [joinFields, List.mem_append, List.mem_singleton, not_or]
  exact ⟨⟨⟨⟨h1, by decide⟩, h2⟩, by decide⟩, h3⟩

/-- C1 (amended): for every record sequence whose fields are nonempty, free
of tab and newline bytes, whose service field does not begin with the
comment marker, and whose tab-joined line fits the program's 1023-byte line
buffers, serializing, encrypting, decrypting with the same key and nonce,
and parsing back (lines, then the three tab-separated fields exactly as
`cmd_show` reads them through its 1023-byte `strncpy` buffer) yields
exactly the original records, in order. -/
theorem C1_roundtrip (cm : Crypto) (key nonce : List Byte)
    (R : List (List Byte × List Byte × List Byte))
    (hR : ∀ r ∈ R, ValidRecord r)
    (hfit : ∀ r ∈ R, (joinFields r.1 r.2.1 r.2.2).length ≤ 1023) :
    (aes256gcm_decrypt cm key nonce
        (aes256gcm_encrypt cm key nonce
          (serialize (R.map fun r => joinFields r.1 r.2.1 r.2.2))).1
        (aes256gcm_encrypt cm key nonce
          (serialize (R.map fun r => joinFields r.1 r.2.1 r.2.2))).2).1 = 0 ∧
    (parse_lines (aes256gcm_decrypt cm key nonce
        (aes256gcm_encrypt cm key nonce
          (serialize (R.map fun r => joinFields r.1 r.2.1 r.2.2))).1
        (aes256gcm_encrypt cm key nonce
          (serialize (R.map fun r => joinFields r.1 r.2.1 r.2.2))).2).2).map
       (fun l => recover3 (l.take 1023))
      = R.map some := by
  have hdec : aes256gcm_decrypt cm key nonce
      (aes256gcm_encrypt cm key nonce
        (serialize (R.map fun r => joinFields r.1 r.2.1 r.2.2))).1
      (aes256gcm_encrypt cm key nonce
        (serialize (R.map fun r => joinFields r.1 r.2.1 r.2.2))).2 =
      (0, serialize (R.map fun r => joinFields r.1 r.2.1 r.2.2)) := by
    simp [aes256gcm_encrypt, aes256gcm_decrypt, xorStream_xorStream]
  rw [hdec]
  refine ⟨rfl, ?_⟩
  rw [parse_serialize]
  · rw [List.map_map]
    apply List.map_congr_left
    intro r hr
    obtain ⟨e1, e2, e3, t1, t2, t3, n1, n2, n3, hh⟩ := hR r hr
    have htk : (joinFields r.1 r.2.1 r.2.2).take 1023 =
        joinFields r.1 r.2.1 r.2.2 := List.take_of_length_le (hfit r hr)
    show recover3 ((joinFields r.1 r.2.1 r.2.2).take 1023) = some r
    rw [htk]
    exact recover3_join r.1 r.2.1 r.2.2 t1 t2 t3 e1 e2 e3
  · intro row hrow
    obtain ⟨r, hrmem, rfl⟩ := List.mem_map.mp hrow
    obtain ⟨e1, e2, e3, t1, t2, t3, n1, n2, n3, hh⟩ := hR r hrmem
    exact ⟨nl_not_mem_join r.1 r.2.1 r.2.2 n1 n2 n3,
      keepLine_join r.1 r.2.1 r.2.2 e1 hh⟩

/-- C1 (counterexample): the claim as stated fails.  The record
`("#a", "u", "p")` has tab- and newline-free fields, yet its serialized line
starts with the comment marker, so parsing drops it and the round trip
returns the empty record sequence.  Moreover a record with an empty user
field (`("a", "", "p")`) survives as a line but cannot be recovered, because
`strtok` collapses the two adjacent tabs and yields only two fields. -/
theorem C1_counterexample :
    (TAB ∉ [HASH, 97] ∧ NL ∉ [HASH, 97] ∧ TAB ∉ [117] ∧
      NL ∉ ([117] : List Byte) ∧ TAB ∉ [112] ∧ NL ∉ ([112] : List Byte)) ∧
    (aes256gcm_decrypt cmZero [] []
        (aes256gcm_encrypt cmZero [] []
          (serialize [joinFields [HASH, 97] [117] [112]])).1
        (aes256gcm_encrypt cmZero [] []
          (serialize [joinFields [HASH, 97] [117] [112]])).2).1 = 0 ∧
    (parse_lines (aes256gcm_decrypt cmZero [] []
        (aes256gcm_encrypt cmZero [] []
          (serialize [joinFields [HASH, 97] [117] [112]])).1
        (aes256gcm_encrypt cmZero [] []
          (serialize [joinFields [HASH, 97] [117] [112]])).2).2).map recover3 = [] ∧
    ([] : List (Option (List Byte × List Byte × List Byte))) ≠
      [some ([HASH, 97], [117], [112])] ∧
    recover3 (joinFields [97] [] [112]) = none := by
  decide

/-- C1 (witness): the amended round trip holds at a concrete record. -/
theorem C1_witness :
    (∀ r ∈ ([([97], [117], [112])] :
        List (List Byte × List Byte × List Byte)), ValidRecord r) ∧
    (∀ r ∈ ([([97], [117], [112])] :
        List (List Byte × List Byte × List Byte)),
      (joinFields r.1 r.2.1 r.2.2).length ≤ 1023) ∧
    ((aes256gcm_decrypt cmZero [] []
        (aes256gcm_encrypt cmZero [] []
          (serialize (([([97], [117], [112])] :
            List (List Byte × List Byte × List Byte)).map
              fun r => joinFields r.1 r.2.1 r.2.2))).1
        (aes256gcm_encrypt cmZero [] []
          (serialize (([([97], [117], [112])] :
            List (List Byte × List Byte × List Byte)).map
              fun r => joinFields r.1 r.2.1 r.2.2))).2).1 = 0 ∧
    (parse_lines (aes256gcm_decrypt cmZero [] []
        (aes256gcm_encrypt cmZero [] []
          (serialize (([([97], [117], [112])] :
            List (List Byte × List Byte × List Byte)).map
              fun r => joinFields r.1 r.2.1 r.2.2))).1
        (aes256gcm_encrypt cmZero [] []
          (serialize (([([97], [117], [112])] :
            List (List Byte × List Byte × List Byte)).map
              fun r => joinFields r.1 r.2.1 r.2.2))).2).2).map
       (fun l => recover3 (l.take 1023))
      = ([([97], [117], [112])] :
          List (List Byte × List Byte × List Byte)).map some) :=
  ⟨by decide, by decide,
    C1_roundtrip cmZero [] [] [([97], [117], [112])] (by decide) (by decide)⟩

/-- C2 (counterexample): the claim as stated fails.  `aes256gcm_decrypt`
calls `EVP_DecryptUpdate`, which writes the decrypted bytes into the
caller's `out_pt` buffer, before `EVP_DecryptFinal_ex` checks the tag: on a
tag mismatch the function returns the single failure code `-1`, but the
caller's buffer already holds the complete decrypted plaintext, so
plaintext bytes have been released to the caller. -/
theorem C2_counterexample :
    aes256gcm_decrypt cmOne [] [] [7, 8] [1] = (-1, [6, 9]) ∧
    ([6, 9] : List Byte) ≠ [] ∧
    [6, 9] = xorStream (cmOne.ks [] []) 0 [7, 8] := by
  decide

/-- C2 (amended): on a tag mismatch `aes256gcm_decrypt` returns the single
failure code `-1` (with the decrypted bytes left in the caller's buffer),
and its caller `load_vault` then zeroizes that buffer and fails with the
single `authFailure` signal, producing no records. -/
theorem C2_load_atomic (cm : Crypto) (e : Endian) (buf : List Byte)
    (pw : List Byte) (f : Fields)
    (hdec : decode e buf = .ok f)
    (hmm : cm.tagF (cm.kdf pw f.salt f.iters) f.nonce f.ct ≠ f.tag) :
    aes256gcm_decrypt cm (cm.kdf pw f.salt f.iters) f.nonce f.ct f.tag =
      (-1, xorStream (cm.ks (cm.kdf pw f.salt f.iters) f.nonce) 0 f.ct) ∧
    load_vault cm e (some buf) pw = .error .authFailure := by
  constructor
  · simp [aes256gcm_decrypt, hmm]
  · simp [load_vault, hdec, aes256gcm_decrypt, hmm]

/-- C2 (witness): the amended atomicity statement holds at a concrete
container whose tag does not verify. -/
theorem C2_witness :
    decode .little bufC2 = .ok ⟨5, List.replicate 16 0, List.replicate 12 0,
      [1, 2], List.replicate 16 3⟩ ∧
    cmZero.tagF (cmZero.kdf [] (List.replicate 16 0) 5) (List.replicate 12 0)
      [1, 2] ≠ List.replicate 16 3 ∧
    (aes256gcm_decrypt cmZero
        (cmZero.kdf [] (List.replicate 16 0) 5) (List.replicate 12 0) [1, 2]
        (List.replicate 16 3) =
      (-1, xorStream (cmZero.ks (cmZero.kdf [] (List.replicate 16 0) 5)
        (List.replicate 12 0)) 0 [1, 2]) ∧
    load_vault cmZero .little (some bufC2) [] = .error .authFailure) :=
  ⟨by decide, by decide,
    C2_load_atomic cmZero .little bufC2 []
      ⟨5, List.replicate 16 0, List.replicate 12 0, [1, 2], List.replicate 16 3⟩
      (by decide) (by decide)⟩

/-- C3: truncating any well-formed container to half its length makes
decoding fail with a `FormatError` (one of the explicit rejection branches
of `load_vault`), never an out-of-bounds read: the magic is compared first,
then the fixed header size, then the ciphertext length against the
remaining bytes, before any slice is taken. -/
theorem C3_truncation (e : Endian) (iters : Nat) (salt nonce ct tag : List Byte)
    (hs : salt.length = 16) (hn : nonce.length = 12) (ht : tag.length = 16)
    (hct : ct.length < 2 ^ 32) :
    ∃ err, decode e ((encode e iters salt nonce ct tag).take
      ((encode e iters salt nonce ct tag).length / 2)) = .error err := by
  set c := encode e iters salt nonce ct tag with hc
  have hlen : c.length = 58 + ct.length :=
    encode_length e iters salt nonce ct tag hs hn ht hct
  set h := c.length / 2 with hh
  have h29 : 29 ≤ h := by omega
  have hlt : h < 58 + ct.length := by omega
  have hmagic : (c.take h).take 6 = MAGICB := by
    rw [List.take_take, Nat.min_eq_left (by omega)]
    exact encode_magic e iters salt nonce ct tag
  have hlen' : (c.take h).length = h := by
    rw [List.length_take, Nat.min_eq_left (by omega)]
  by_cases hsmall : h < 58
  · refine ⟨.tooSmall, ?_⟩
    rw [decode, if_neg (by rw [hmagic]; simp), if_pos (by rw [hlen']; exact hsmall)]
  · have h58 : 58 ≤ h := by omega
    have hslice : ((c.take h).drop 38).take 4 = u32bytes e ct.length := by
      rw [List.drop_take, List.take_take, Nat.min_eq_left (by omega)]
      exact encode_ctlen_slice e iters salt nonce ct tag hs hn
    have hread : readU32 e (((c.take h).drop 38).take 4) = ct.length := by
      rw [hslice]; exact readU32_u32bytes e ct.length hct
    refine ⟨.ctOverrun, ?_⟩
    rw [decode, if_neg (by rw [hmagic]; simp),
      if_neg (by rw [hlen']; omega),
      if_pos (by rw [hlen', hread]; omega)]

/-- C3 (witness): the truncation theorem applies to a concrete container. -/
theorem C3_witness :
    ((List.replicate 16 1 : List Byte).length = 16 ∧
     (List.replicate 12 2 : List Byte).length = 12 ∧
     (List.replicate 16 3 : List Byte).length = 16 ∧
     ([4, 5] : List Byte).length < 2 ^ 32) ∧
    ∃ err, decode .little
      ((encode .little 7 (List.replicate 16 1) (List.replicate 12 2) [4, 5]
        (List.replicate 16 3)).take
        ((encode .little 7 (List.replicate 16 1) (List.replicate 12 2) [4, 5]
          (List.replicate 16 3)).length / 2)) = .error err :=
  ⟨by decide,
    C3_truncation .little 7 (List.replicate 16 1) (List.replicate 12 2) [4, 5]
      (List.replicate 16 3) (by decide) (by decide) (by decide) (by decide)⟩

theorem length_draw (t : Nat → Nat) (pos n : Nat) : (draw t pos n).length = n := by
  simp [draw]

theorem save_vault_eq (cm : Crypto) (e : Endian) (rows : List (List Byte))
    (pw : List Byte) (st : RngState) :
    save_vault cm e rows pw st =
      (encode e PBKDF2_ITERS (draw st.tape st.pos 16)
        (draw st.tape (st.pos + 16) 12)
        (xorStream (cm.ks (cm.kdf pw (draw st.tape st.pos 16) PBKDF2_ITERS)
          (draw st.tape (st.pos + 16) 12)) 0 (serialize rows))
        (cm.tagF (cm.kdf pw (draw st.tape st.pos 16) PBKDF2_ITERS)
          (draw st.tape (st.pos + 16) 12)
          (xorStream (cm.ks (cm.kdf pw (draw st.tape st.pos 16) PBKDF2_ITERS)
            (draw st.tape (st.pos + 16) 12)) 0 (serialize rows))),
       ⟨st.tape, st.pos + 28⟩) := rfl

/-- C4 (counterexample): the claim as stated fails.  Salt, nonce and
ciphertext are functions of the bytes returned by the random source; on a
source that returns the same bytes for both draws (here the all-zero tape),
two consecutive saves of the same vault produce byte-identical containers —
equal salts, equal nonces, equal ciphertext. -/
theorem C4_counterexample :
    (save_vault cmZero .little [] [] ⟨tape0, 0⟩).1 =
      (save_vault cmZero .little [] []
        ((save_vault cmZero .little [] [] ⟨tape0, 0⟩).2)).1 ∧
    ((save_vault cmZero .little [] [] ⟨tape0, 0⟩).1.drop 10).take 16 =
      (((save_vault cmZero .little [] []
        ((save_vault cmZero .little [] [] ⟨tape0, 0⟩).2)).1.drop 10).take 16) := by
  decide

/-- C4 (amended): on every save the salt and nonce are drawn fresh from the
random source — the first save consumes tape positions `pos..pos+27` and
leaves the source at `pos+28`, the second consumes `pos+28..pos+55` — and
the container embeds exactly those draws.  Consequently, whenever the
source returns different bytes for the two salt draws, the two containers'
salt fields differ; likewise for the nonces; and the ciphertext fields
differ whenever the keystreams selected by the two derived keys and nonces
differ at some position of the (identical) plaintext. -/
theorem C4_fresh (cm : Crypto) (e : Endian) (rows : List (List Byte))
    (pw : List Byte) (st : RngState)
    (h0 : (serialize rows).length < 2 ^ 32)
    (h1 : draw st.tape st.pos 16 ≠ draw st.tape (st.pos + 28) 16)
    (h2 : draw st.tape (st.pos + 16) 12 ≠ draw st.tape (st.pos + 44) 12)
    (h3 : ∃ j, j < (serialize rows).length ∧
      cm.ks (cm.kdf pw (draw st.tape st.pos 16) PBKDF2_ITERS)
          (draw st.tape (st.pos + 16) 12) j % 256 ≠
        cm.ks (cm.kdf pw (draw st.tape (st.pos + 28) 16) PBKDF2_ITERS)
          (draw st.tape (st.pos + 44) 12) j % 256) :
    (save_vault cm e rows pw st).2.pos = st.pos + 28 ∧
    ((save_vault cm e rows pw st).1.drop 10).take 16 =
      draw st.tape st.pos 16 ∧
    (((save_vault cm e rows pw ((save_vault cm e rows pw st).2)).1.drop 10).take 16 =
      draw st.tape (st.pos + 28) 16) ∧
    ((save_vault cm e rows pw st).1.drop 26).take 12 =
      draw st.tape (st.pos + 16) 12 ∧
    (((save_vault cm e rows pw ((save_vault cm e rows pw st).2)).1.drop 26).take 12 =
      draw st.tape (st.pos + 44) 12) ∧
    ((save_vault cm e rows pw st).1.drop 10).take 16 ≠
      (((save_vault cm e rows pw ((save_vault cm e rows pw st).2)).1.drop 10).take 16) ∧
    ((save_vault cm e rows pw st).1.drop 26).take 12 ≠
      (((save_vault cm e rows pw ((save_vault cm e rows pw st).2)).1.drop 26).take 12) ∧
    ((save_vault cm e rows pw st).1.drop 42).take (serialize rows).length ≠
      (((save_vault cm e rows pw
        ((save_vault cm e rows pw st).2)).1.drop 42).take (serialize rows).length) := by
  have hxlen : ∀ f : Nat → Nat, (xorStream f 0 (serialize rows)).length < 2 ^ 32 := by
    intro f; rw [length_xorStream]; exact h0
  have hsalt1 : ((save_vault cm e rows pw st).1.drop 10).take 16 =
      draw st.tape st.pos 16 := by
    rw [save_vault_eq]
    exact encode_salt_slice _ _ _ _ _ _ (length_draw _ _ _)
  have hsalt2 : (((save_vault cm e rows pw
      ((save_vault cm e rows pw st).2)).1.drop 10).take 16) =
      draw st.tape (st.pos + 28) 16 := by
    rw [save_vault_eq, save_vault_eq]
    exact encode_salt_slice _ _ _ _ _ _ (length_draw _ _ _)
  have hnonce1 : ((save_vault cm e rows pw st).1.drop 26).take 12 =
      draw st.tape (st.pos + 16) 12 := by
    rw [save_vault_eq]
    exact encode_nonce_slice _ _ _ _ _ _ (length_draw _ _ _) (length_draw _ _ _)
  have hnonce2 : (((save_vault cm e rows pw
      ((save_vault cm e rows pw st).2)).1.drop 26).take 12) =
      draw st.tape (st.pos + 44) 12 := by
    rw [save_vault_eq, save_vault_eq]
    exact encode_nonce_slice _ _ _ _ _ _ (length_draw _ _ _) (length_draw _ _ _)
  refine ⟨by rw [save_vault_eq], hsalt1, hsalt2, hnonce1, hnonce2,
    by rw [hsalt1, hsalt2]; exact h1, by rw [hnonce1, hnonce2]; exact h2, ?_⟩
  have hct1 : ((save_vault cm e rows pw st).1.drop 42).take
      (serialize rows).length =
      xorStream (cm.ks (cm.kdf pw (draw st.tape st.pos 16) PBKDF2_ITERS)
        (draw st.tape (st.pos + 16) 12)) 0 (serialize rows) := by
    rw [save_vault_eq]
    have := encode_ct_slice e PBKDF2_ITERS (draw st.tape st.pos 16)
      (draw st.tape (st.pos + 16) 12)
      (xorStream (cm.ks (cm.kdf pw (draw st.tape st.pos 16) PBKDF2_ITERS)
        (draw st.tape (st.pos + 16) 12)) 0 (serialize rows))
      (cm.tagF (cm.kdf pw (draw st.tape st.pos 16) PBKDF2_ITERS)
        (draw st.tape (st.pos + 16) 12)
        (xorStream (cm.ks (cm.kdf pw (draw st.tape st.pos 16) PBKDF2_ITERS)
          (draw st.tape (st.pos + 16) 12)) 0 (serialize rows)))
      (length_draw _ _ _) (length_draw _ _ _) (hxlen _)
    rwa [length_xorStream] at this
  have hct2 : (((save_vault cm e rows pw
      ((save_vault cm e rows pw st).2)).1.drop 42).take
      (serialize rows).length) =
      xorStream (cm.ks (cm.kdf pw (draw st.tape (st.pos + 28) 16) PBKDF2_ITERS)
        (draw st.tape (st.pos + 44) 12)) 0 (serialize rows) := by
    rw [save_vault_eq, save_vault_eq]
    have := encode_ct_slice e PBKDF2_ITERS (draw st.tape (st.pos + 28) 16)
      (draw st.tape (st.pos + 44) 12)
      (xorStream (cm.ks (cm.kdf pw (draw st.tape (st.pos + 28) 16) PBKDF2_ITERS)
        (draw st.tape (st.pos + 44) 12)) 0 (serialize rows))
      (cm.tagF (cm.kdf pw (draw st.tape (st.pos + 28) 16) PBKDF2_ITERS)
        (draw st.tape (st.pos + 44) 12)
        (xorStream (cm.ks (cm.kdf pw (draw st.tape (st.pos + 28) 16) PBKDF2_ITERS)
          (draw st.tape (st.pos + 44) 12)) 0 (serialize rows)))
      (length_draw _ _ _) (length_draw _ _ _) (hxlen _)
    rwa [length_xorStream] at this
  rw [hct1, hct2]
  obtain ⟨j, hj, hne⟩ := h3
  exact xorStream_ne _ _ (serialize rows) 0 j hj (by simpa using hne)

/-- C4 (witness): the amended freshness statement holds at a concrete
random tape and a nonce-sensitive crypto model. -/
theorem C4_witness :
    ((serialize ([] : List (List Byte))).length < 2 ^ 32 ∧
     draw tapeId 0 16 ≠ draw tapeId 28 16 ∧
     draw tapeId 16 12 ≠ draw tapeId 44 12) ∧
    (((save_vault cmNonce .little [] [] ⟨tapeId, 0⟩).1.drop 10).take 16 ≠
      (((save_vault cmNonce .little [] []
        ((save_vault cmNonce .little [] [] ⟨tapeId, 0⟩).2)).1.drop 10).take 16) ∧
     ((save_vault cmNonce .little [] [] ⟨tapeId, 0⟩).1.drop 26).take 12 ≠
      (((save_vault cmNonce .little [] []
        ((save_vault cmNonce .little [] [] ⟨tapeId, 0⟩).2)).1.drop 26).take 12) ∧
     ((save_vault cmNonce .little [] [] ⟨tapeId, 0⟩).1.drop 42).take
        (serialize ([] : List (List Byte))).length ≠
      (((save_vault cmNonce .little [] []
        ((save_vault cmNonce .little [] [] ⟨tapeId, 0⟩).2)).1.drop 42).take
        (serialize ([] : List (List Byte))).length)) := by
  have h := C4_fresh cmNonce .little [] [] ⟨tapeId, 0⟩ (by decide) (by decide)
    (by decide) ⟨0, by decide⟩
  exact ⟨⟨by decide, by decide, by decide⟩, h.2.2.2.2.2.1, h.2.2.2.2.2.2.1,
    h.2.2.2.2.2.2.2⟩

theorem tokenize_take_le (d : Byte) (l : List Byte) : ∀ k : Nat,
    (tokenize d (l.take k)).length ≤ (tokenize d l).length ∧
    ((splitAll d (l.take k)).tail.filter (fun s => !s.isEmpty)).length ≤
      ((splitAll d l).tail.filter (fun s => !s.isEmpty)).length := by
  induction l with
  | nil =>
    intro k
    simp [List.take_nil]
  | cons c rest ih =>
    intro k
    cases k with
    | zero =>
      constructor
      · simp [tokenize, splitAll]
      · simp [splitAll]
    | succ k =>
      rw [List.take_succ_cons]
      by_cases hc : c = d
      · subst hc
        constructor
        · simpa [tokenize, splitAll] using (ih k).1
        · simpa [splitAll, tokenize] using (ih k).1
      · obtain ⟨t, ts, hts⟩ : ∃ t ts, splitAll d rest = t :: ts := by
          cases h : splitAll d rest with
          | nil => exact absurd h (splitAll_ne_nil d rest)
          | cons t ts => exact ⟨t, ts, rfl⟩
        obtain ⟨t', ts', hts'⟩ : ∃ t' ts', splitAll d (rest.take k) = t' :: ts' := by
          cases h : splitAll d (rest.take k) with
          | nil => exact absurd h (splitAll_ne_nil d _)
          | cons t ts => exact ⟨t, ts, rfl⟩
        have h1 : splitAll d (c :: rest) = (c :: t) :: ts := by
          simp only [splitAll, if_neg hc, hts]
        have h1' : splitAll d (c :: rest.take k) = (c :: t') :: ts' := by
          simp only [splitAll, if_neg hc, hts']
        have hih2 := (ih k).2
        rw [hts, hts'] at hih2
        simp only [List.tail_cons] at hih2
        constructor
        · rw [tokenize, tokenize, h1, h1']
          simp only [List.filter_cons, List.isEmpty_cons, Bool.not_false,
            if_true, List.length_cons]
          exact Nat.succ_le_succ hih2
        · rw [h1, h1']
          simp only [List.tail_cons]
          exact hih2

/-- C5 (counterexample): the claim as stated fails.  A decrypted blob whose
record line `"foo"` does not split into three tab-separated fields is kept
whole by `parse_lines` (which validates nothing), and `cmd_show` then skips
it silently: the lookup merely reports not-found.  No corruption error
exists anywhere on this path. -/
theorem C5_counterexample :
    parse_lines (hdr ++ [102, 111, 111, NL]) = [[102, 111, 111]] ∧
    showLookup [[102, 111, 111]] [102, 111, 111] = none := by
  decide

/-- C5 (amended): parse splits the blob on newline, drops every line
beginning with `'#'` (the header among them) and every empty line, and
keeps each remaining line whole, without validating its field count;
tab-splitting happens only in `cmd_show`, which silently skips any line
with fewer than three tab tokens instead of reporting a corruption
error. -/
theorem C5_parse_show (xs blob ys l q : List Byte) (c : Byte)
    (rest : List (List Byte))
    (h1 : NL ∉ xs) (h2 : c ≠ HASH) (h3 : c ≠ NL) (h4 : NL ∉ ys)
    (h5 : (tokenize TAB l).length < 3) :
    parse_lines (NL :: blob) = parse_lines blob ∧
    parse_lines ((HASH :: xs) ++ NL :: blob) = parse_lines blob ∧
    parse_lines ((c :: ys) ++ NL :: blob) = (c :: ys) :: parse_lines blob ∧
    showLookup (l :: rest) q = showLookup rest q := by
  refine ⟨?_, ?_, ?_, ?_⟩
  · simp [parse_lines, splitAll, keepLine]
  · have hx : NL ∉ HASH :: xs := by
      simp only [List.mem_cons, not_or]; exact ⟨by decide, h1⟩
    rw [parse_lines, parse_lines, splitAll_append_delim NL _ _ hx]
    simp [keepLine]
  · have hy : NL ∉ c :: ys := by
      simp only [List.mem_cons, not_or]; exact ⟨fun hc => h3 hc.symm, h4⟩
    rw [parse_lines, parse_lines, splitAll_append_delim NL _ _ hy]
    simp [keepLine, h2]
  · have h5' : (tokenize TAB (l.take 1023)).length < 3 :=
      lt_of_le_of_lt (tokenize_take_le TAB l 1023).1 h5
    have hr : recover3 (l.take 1023) = none := by
      rw [recover3]
      rcases htok : tokenize TAB (l.take 1023) with _ | ⟨t0, _ | ⟨t1, _ | ⟨t2, ts⟩⟩⟩
      · rfl
      · rfl
      · rfl
      · rw [htok] at h5'
        exact absurd h5' (by simp only [List.length_cons]; omega)
    simp [showLookup, List.findSome?_cons, hr]

/-- C5 (witness): the amended parse and show behaviour at concrete inputs. -/
theorem C5_witness :
    (NL ∉ ([104] : List Byte) ∧ (97 : Byte) ≠ HASH ∧ (97 : Byte) ≠ NL ∧
     NL ∉ ([98] : List Byte) ∧ (tokenize TAB [102]).length < 3) ∧
    (parse_lines (NL :: [102, NL]) = parse_lines [102, NL] ∧
     parse_lines ((HASH :: [104]) ++ NL :: [102, NL]) = parse_lines [102, NL] ∧
     parse_lines ((97 :: [98]) ++ NL :: [102, NL]) =
       (97 :: [98]) :: parse_lines [102, NL] ∧
     showLookup ([102] :: [[97, 9, 98, 9, 99]]) [97] =
       showLookup [[97, 9, 98, 9, 99]] [97]) :=
  ⟨by decide, C5_parse_show [104] [102, NL] [98] [102] [97] 97
    [[97, 9, 98, 9, 99]] (by decide) (by decide) (by decide) (by decide)
    (by decide)⟩

/-- C6: the atomic-save guarantee.  An I/O failure at any injection point
(open, short write, close, rename) leaves the real container path
byte-for-byte untouched and reports failure; only the successful path
replaces the real file, and then with the complete new contents. -/
theorem C6_atomic_write (fs : FS) (data : List Byte) :
    (∀ f : IOFail,
      ((write_all_atomic fs data (some f)).1.real = fs.real ∧
       (write_all_atomic fs data (some f)).2 = false)) ∧
    (write_all_atomic fs data none).1.real = some data ∧
    (write_all_atomic fs data none).2 = true := by
  refine ⟨fun f => ?_, rfl, rfl⟩
  cases f <;> simp [write_all_atomic]

/-- C7: when the container file already exists, `cmd_init` returns exit
code 1 immediately — before reading a password, consuming randomness, or
touching the file system: the state it returns is exactly the state it was
given. -/
theorem C7_init_refuses (cm : Crypto) (e : Endian) (pw1 pw2 : Option (List Byte))
    (bytes : List Byte) (tmp0 : Option (List Byte)) (st : RngState)
    (failAt : Option IOFail) :
    cmd_init cm e pw1 pw2 ⟨some bytes, tmp0⟩ st failAt =
      (1, ⟨some bytes, tmp0⟩, st) := by
  simp [cmd_init]

/-- C8 (counterexample): the claim as stated fails.  The C code stores the
two `uint32_t` fields with `memcpy` of the host representation (the line
`uint32_t iters_le = PBKDF2_ITERS; /* host LE assumed */`), so the encoding
is not independent of the host byte order: on a big-endian host the
iterations field of a saved container is `[0, 3, 13, 64]`, which is not the
little-endian encoding `[64, 13, 3, 0]` of 200000. -/
theorem C8_counterexample :
    (((save_vault cmZero .big [] [] ⟨tape0, 0⟩).1.drop 6).take 4 =
      [0, 3, 13, 64]) ∧
    ([0, 3, 13, 64] : List Byte) ≠ u32bytes .little PBKDF2_ITERS ∧
    u32bytes .little PBKDF2_ITERS = [64, 13, 3, 0] := by
  decide

/-- C8 (amended): on a little-endian host — the only kind the source ran
on, per the spec's deliberate-interpretation note — every container written
by save carries the iterations field and the ciphertext-length field as
4-byte little-endian integers at offsets 6 and 38, and reading them back in
host order recovers the original values. -/
theorem C8_little_endian (cm : Crypto) (rows : List (List Byte))
    (pw : List Byte) (st : RngState)
    (h : (serialize rows).length < 2 ^ 32) :
    ((save_vault cm .little rows pw st).1.drop 6).take 4 =
      u32bytes .little PBKDF2_ITERS ∧
    ((save_vault cm .little rows pw st).1.drop 38).take 4 =
      u32bytes .little (serialize rows).length ∧
    readU32 .little (((save_vault cm .little rows pw st).1.drop 6).take 4) =
      PBKDF2_ITERS ∧
    readU32 .little (((save_vault cm .little rows pw st).1.drop 38).take 4) =
      (serialize rows).length := by
  have h1 : ((save_vault cm .little rows pw st).1.drop 6).take 4 =
      u32bytes .little PBKDF2_ITERS := by
    rw [save_vault_eq]
    exact encode_iters_slice _ _ _ _ _ _
  have h2 : ((save_vault cm .little rows pw st).1.drop 38).take 4 =
      u32bytes .little (serialize rows).length := by
    rw [save_vault_eq]
    have := encode_ctlen_slice .little PBKDF2_ITERS (draw st.tape st.pos 16)
      (draw st.tape (st.pos + 16) 12)
      (xorStream (cm.ks (cm.kdf pw (draw st.tape st.pos 16) PBKDF2_ITERS)
        (draw st.tape (st.pos + 16) 12)) 0 (serialize rows))
      (cm.tagF (cm.kdf pw (draw st.tape st.pos 16) PBKDF2_ITERS)
        (draw st.tape (st.pos + 16) 12)
        (xorStream (cm.ks (cm.kdf pw (draw st.tape st.pos 16) PBKDF2_ITERS)
          (draw st.tape (st.pos + 16) 12)) 0 (serialize rows)))
      (length_draw _ _ _) (length_draw _ _ _)
    rwa [length_xorStream] at this
  refine ⟨h1, h2, ?_, ?_⟩
  · rw [h1]; exact readU32_u32bytes .little PBKDF2_ITERS (by decide)
  · rw [h2]; exact readU32_u32bytes .little (serialize rows).length h

/-- C8 (witness): the little-endian layout at a concrete save. -/
theorem C8_witness :
    ((serialize ([] : List (List Byte))).length < 2 ^ 32) ∧
    (((save_vault cmZero .little [] [] ⟨tape0, 0⟩).1.drop 6).take 4 =
      u32bytes .little PBKDF2_ITERS ∧
     ((save_vault cmZero .little [] [] ⟨tape0, 0⟩).1.drop 38).take 4 =
      u32bytes .little (serialize ([] : List (List Byte))).length ∧
     readU32 .little
        (((save_vault cmZero .little [] [] ⟨tape0, 0⟩).1.drop 6).take 4) =
      PBKDF2_ITERS ∧
     readU32 .little
        (((save_vault cmZero .little [] [] ⟨tape0, 0⟩).1.drop 38).take 4) =
      (serialize ([] : List (List Byte))).length) :=
  ⟨by decide, C8_little_endian cmZero [] [] ⟨tape0, 0⟩ (by decide)⟩

/-- C9: when any field passed to `cmd_add` contains a tab or newline byte,
the command returns exit code 1 from the validation that precedes the
password prompt, the load, and the save: the file system (both the real
container path and the temporary path) and the random source are returned
exactly as given. -/
theorem C9_delimiter_reject (cm : Crypto) (e : Endian) (s u p : List Byte)
    (pw : Option (List Byte)) (fs : FS) (st : RngState)
    (failAt : Option IOFail)
    (h : hasDelim s = true ∨ hasDelim u = true ∨ hasDelim p = true) :
    cmd_add cm e (some s) (some u) (some p) pw fs st failAt = (1, fs, st) := by
  rcases h with h | h | h <;> simp [cmd_add, h]

/-- C9 (witness): a service field containing a tab is rejected with the
state unchanged. -/
theorem C9_witness :
    (hasDelim [97, 9, 98] = true ∨ hasDelim [117] = true ∨
      hasDelim [112] = true) ∧
    cmd_add cmZero .little (some [97, 9, 98]) (some [117]) (some [112])
      (some [109]) ⟨some [1, 2, 3], none⟩ ⟨tape0, 0⟩ none =
      (1, ⟨some [1, 2, 3], none⟩, ⟨tape0, 0⟩) :=
  ⟨Or.inl (by decide),
    C9_delimiter_reject cmZero .little [97, 9, 98] [117] [112] (some [109])
      ⟨some [1, 2, 3], none⟩ ⟨tape0, 0⟩ none (Or.inl (by decide))⟩

theorem takeWhile_nonzero (l : List Byte) (h : ∀ b ∈ l, b ≠ 0) :
    l.takeWhile (fun b => b ≠ 0) = l := by
  induction l with
  | nil => rfl
  | cons b bs ih =>
    have hb : b ≠ 0 := h b (List.mem_cons_self b bs)
    rw [List.takeWhile_cons, if_pos (by simp [hb]),
      ih (fun x hx => h x (List.mem_cons_of_mem b hx))]

theorem contains_replicate_ne (n : Nat) (a b : Byte) (h : (a == b) = false) :
    (List.replicate n b).contains a = false := by
  induction n with
  | zero => rfl
  | succ n ih => rw [List.replicate_succ, List.contains_cons, h, ih]; rfl

theorem hasDelim_pwdLong : hasDelim pwdLong = false := by
  rw [hasDelim, pwdLong, contains_replicate_ne _ _ _ (by decide),
    contains_replicate_ne _ _ _ (by decide)]; rfl

theorem pwdTrunc_ne_nil : pwdTrunc ≠ [] := by
  intro h
  have h2 := congrArg List.length h
  rw [pwdTrunc, List.length_replicate, List.length_nil] at h2
  exact absurd h2 (by decide)

theorem not_mem_pwdTrunc (x : Byte) (hx : ¬x = 99) : x ∉ pwdTrunc := by
  intro h
  rw [pwdTrunc] at h
  exact hx (List.eq_of_mem_replicate h)

theorem serialize_nozero (rows : List (List Byte))
    (h : ∀ r ∈ rows, ∀ b ∈ r, b ≠ 0) : ∀ b ∈ serialize rows, b ≠ 0 := by
  intro b hb
  rw [serialize] at hb
  rcases List.mem_append.mp hb with h1 | h2
  · have hh : ∀ x ∈ hdr, x ≠ 0 := by decide
    exact hh b h1
  · rcases List.mem_flatMap.mp h2 with ⟨r, hr, hbr⟩
    rcases List.mem_append.mp hbr with h3 | h4
    · exact h r hr b h3
    · simp only [List.mem_singleton] at h4
      subst h4
      decide

theorem load_save (cm : Crypto) (e : Endian) (rows : List (List Byte))
    (pw : List Byte) (st : RngState)
    (hlen : (serialize rows).length < 2 ^ 32)
    (hrows : ∀ r ∈ rows, NL ∉ r ∧ keepLine r = true)
    (hz : ∀ b ∈ serialize rows, b ≠ 0)
    (htag : (cm.tagF (cm.kdf pw (draw st.tape st.pos 16) PBKDF2_ITERS)
      (draw st.tape (st.pos + 16) 12)
      (xorStream (cm.ks (cm.kdf pw (draw st.tape st.pos 16) PBKDF2_ITERS)
        (draw st.tape (st.pos + 16) 12)) 0 (serialize rows))).length = 16) :
    load_vault cm e (some (save_vault cm e rows pw st).1) pw = .ok rows := by
  have hct : (xorStream (cm.ks (cm.kdf pw (draw st.tape st.pos 16) PBKDF2_ITERS)
      (draw st.tape (st.pos + 16) 12)) 0 (serialize rows)).length < 2 ^ 32 := by
    rw [length_xorStream]; exact hlen
  have hdec := decode_encode e PBKDF2_ITERS (draw st.tape st.pos 16)
    (draw st.tape (st.pos + 16) 12)
    (xorStream (cm.ks (cm.kdf pw (draw st.tape st.pos 16) PBKDF2_ITERS)
      (draw st.tape (st.pos + 16) 12)) 0 (serialize rows))
    (cm.tagF (cm.kdf pw (draw st.tape st.pos 16) PBKDF2_ITERS)
      (draw st.tape (st.pos + 16) 12)
      (xorStream (cm.ks (cm.kdf pw (draw st.tape st.pos 16) PBKDF2_ITERS)
        (draw st.tape (st.pos + 16) 12)) 0 (serialize rows)))
    (by decide) (length_draw _ _ _) (length_draw _ _ _) htag hct
  rw [save_vault_eq]
  simp only [load_vault, hdec, aes256gcm_decrypt, if_pos, xorStream_xorStream,
    eq_self_iff_true, if_true]
  rw [takeWhile_nonzero _ hz, parse_serialize rows hrows]

set_option maxRecDepth 8192 in
/-- C10: the silent-truncation flaw is real.  The fields `a`, `b` and a
1020-byte password are free of tabs and newlines, `init` and `add` both
succeed (exit code 0), yet the line stored by `add` is capped at 1023
bytes, so `show` afterwards returns a 1019-byte password different from
the one that was passed to `add`. -/
theorem C10_truncation :
    hasDelim [97] = false ∧ hasDelim [98] = false ∧ hasDelim pwdLong = false ∧
    addLine [97] [98] pwdLong = [97, 9, 98, 9] ++ pwdTrunc ∧
    initRes.1 = 0 ∧ addRes.1 = 0 ∧
    showRes = (0, some ([97], [98], pwdTrunc)) ∧
    pwdTrunc ≠ pwdLong := by
  have hline : addLine [97] [98] pwdLong = joinFields [97] [98] pwdTrunc := by
    rw [addLine]
    have h1 : joinFields [97] [98] pwdLong = [97, 9, 98, 9] ++ pwdLong := rfl
    have h2 : joinFields [97] [98] pwdTrunc = [97, 9, 98, 9] ++ pwdTrunc := rfl
    rw [h1, h2, List.take_append_eq_append_take,
      List.take_of_length_le (by decide), pwdLong, pwdTrunc,
      List.take_replicate]
    have h3 : (1023 - ([97, 9, 98, 9] : List Byte).length) ⊓ 1020 = 1019 := by
      decide
    rw [h3]
  have hinit : initRes =
      (0, ⟨some (save_vault cmZero .little [] [109] ⟨tape0, 0⟩).1, none⟩,
        (save_vault cmZero .little [] [109] ⟨tape0, 0⟩).2) := by
    simp [initRes, cmd_init, write_all_atomic]
  have hload0 : load_vault cmZero .little
      (some (save_vault cmZero .little [] [109] ⟨tape0, 0⟩).1) [109] =
      .ok [] :=
    load_save cmZero .little [] [109] ⟨tape0, 0⟩ (by decide) (by simp)
      (by decide) (by simp [cmZero])
  have hadd : addRes =
      (0, ⟨some (save_vault cmZero .little [joinFields [97] [98] pwdTrunc] [109]
          (save_vault cmZero .little [] [109] ⟨tape0, 0⟩).2).1, none⟩,
        (save_vault cmZero .little [joinFields [97] [98] pwdTrunc] [109]
          (save_vault cmZero .little [] [109] ⟨tape0, 0⟩).2).2) := by
    have hd1 : hasDelim [97] = false := by decide
    have hd2 : hasDelim [98] = false := by decide
    simp only [addRes]
    rw [hinit]
    simp [cmd_add, hd1, hd2, hasDelim_pwdLong, hload0, write_all_atomic, hline]
  have hjl : (joinFields [97] [98] pwdTrunc).length = 1023 := by
    have hpl : pwdTrunc.length = 1019 := by rw [pwdTrunc, List.length_replicate]
    have h2 : joinFields [97] [98] pwdTrunc = [97, 9, 98, 9] ++ pwdTrunc := rfl
    rw [h2, List.length_append, hpl]
    rfl
  have hloadlen : (serialize [joinFields [97] [98] pwdTrunc]).length < 2 ^ 32 := by
    have hhl : hdr.length = 28 := rfl
    rw [serialize]
    simp only [List.flatMap_cons, List.flatMap_nil, List.append_nil,
      List.length_append, hhl, hjl, List.length_cons, List.length_nil]
    omega
  have hrows1 : ∀ r ∈ [joinFields [97] [98] pwdTrunc],
      NL ∉ r ∧ keepLine r = true := by
    intro r hr
    simp only [List.mem_singleton] at hr
    subst hr
    refine ⟨nl_not_mem_join _ _ _ (by decide) (by decide)
      (not_mem_pwdTrunc NL (by decide)),
      keepLine_join _ _ _ (by decide) (by decide)⟩
  have hz1 : ∀ b ∈ serialize [joinFields [97] [98] pwdTrunc], b ≠ 0 := by
    apply serialize_nozero
    intro r hr
    simp only [List.mem_singleton] at hr
    subst hr
    intro b hb
    have h2 : joinFields [97] [98] pwdTrunc = [97, 9, 98, 9] ++ pwdTrunc := rfl
    rw [h2] at hb
    rcases List.mem_append.mp hb with h | h
    · have hq : ∀ x ∈ ([97, 9, 98, 9] : List Byte), x ≠ 0 := by decide
      exact hq b h
    · rw [pwdTrunc] at h
      have h3 := List.eq_of_mem_replicate h
      subst h3
      decide
  have hload1 := load_save cmZero .little [joinFields [97] [98] pwdTrunc] [109]
    (save_vault cmZero .little [] [109] ⟨tape0, 0⟩).2 hloadlen hrows1 hz1
    (by simp [cmZero])
  have hrec : recover3 (joinFields [97] [98] pwdTrunc) =
      some ([97], [98], pwdTrunc) :=
    recover3_join _ _ _ (by decide) (by decide)
      (not_mem_pwdTrunc TAB (by decide)) (by decide) (by decide)
      pwdTrunc_ne_nil
  have htake : (joinFields [97] [98] pwdTrunc).take 1023 =
      joinFields [97] [98] pwdTrunc :=
    List.take_of_length_le (by rw [hjl])
  have hshow : showRes = (0, some ([97], [98], pwdTrunc)) := by
    simp only [showRes]
    rw [hadd]
    simp [cmd_show, hload1, showLookup, List.findSome?_cons, htake, hrec]
  refine ⟨by decide, by decide, hasDelim_pwdLong, hline.trans rfl,
    by rw [hinit], by rw [hadd], hshow, ?_⟩
  intro hcontra
  have hlen2 := congrArg List.length hcontra
  rw [pwdTrunc, pwdLong, List.length_replicate, List.length_replicate] at hlen2
  exact absurd hlen2 (by decide)

end Vault

